import Mathlib

/-!
Shallow embedding of the SCRAM PDAG core (`src/pdag.h`) and proofs of the
specified properties of its gate-argument operations, node visit protocol,
index allocation and worklist registration.

Machine `int` values are modelled as `Int` (no overflow is relevant to the
modelled operations), `boost::container::flat_set<int>` as a sorted
`List Int`, and `ext::linear_map` containers as association lists that
preserve insertion order.  Shared pointers to argument nodes are replaced by
the node's (positive) index, which identifies the node within one graph.
-/

namespace scram

/-- Boolean operators of gates, from `enum Operator` (pdag.h:256-265). -/
inductive Operator where
  | kAnd
  | kOr
  | kVote
  | kXor
  | kNot
  | kNand
  | kNor
  | kNull
deriving DecidableEq

/-- Gate set state, from `enum State` (pdag.h:274-278). -/
inductive State where
  | kNormalState
  | kNullState
  | kUnityState
deriving DecidableEq

/-- The three node variants a gate argument can have, matching the three
typed argument maps `gate_args_`, `variable_args_`, `constant_args_`
(pdag.h:723-725).  In the C++ the variant is the template parameter `T`
of `Gate::AddArg<T>`. -/
inductive Variant where
  | gateArg
  | variableArg
  | constantArg
deriving DecidableEq

/-- Ordered insertion into a `boost::container::flat_set<int>`:
inserts keeping the ascending order, no-op when the value is present. -/
def flatSetInsert (i : Int) : List Int → List Int
  | [] => [i]
  | x :: xs =>
    if i < x then i :: x :: xs
    else if i = x then x :: xs
    else x :: flatSetInsert i xs

/-- Parent maps of all nodes of the graph: node index ↦ list of parent gate
indices.  Each node's `NodeParentManager::ParentMap` (pdag.h:73) is an
`ext::linear_map` keyed by the parent gate's positive index; we keep only
the keys because the mapped weak pointer is determined by the key. -/
abbrev ParentMaps := List (Nat × List Nat)

/-- Parents registered for node `n` (`NodeParentManager::parents()`). -/
def parentsOf : ParentMaps → Nat → List Nat
  | [], _ => []
  | (m, gs) :: rest, n => if m = n then gs else parentsOf rest n

/-- Models `NodeParentManager::AddParent` (pdag.h:87, body in pdag.cc):
inserts a back-reference to parent gate `g` into node `n`'s parent map.
Precondition (asserted in C++): the parent is not in the container. -/
def AddParent (ps : ParentMaps) (n g : Nat) : ParentMaps :=
  match ps with
  | [] => [(n, [g])]
  | (m, gs) :: rest =>
    if m = n then (m, gs ++ [g]) :: rest else (m, gs) :: AddParent rest n g

/-- Models `NodeParentManager::EraseParent` (pdag.h:94-97): removes the
entry keyed by gate `g` from node `n`'s parent map. -/
def EraseParent (ps : ParentMaps) (n g : Nat) : ParentMaps :=
  ps.map (fun e => if e.1 = n then (e.1, e.2.filter (fun x => !(x == g))) else e)

/-- The mutable fields of `class Gate` (pdag.h:710-726) that the modelled
operations touch.  Typed argument maps store `(signed index, node index)`
pairs in insertion order, standing for `(int, shared_ptr)` entries. -/
structure Gate where
  type_ : Operator
  state_ : State
  vote_number_ : Int
  args_ : List Int
  gate_args_ : List (Int × Nat)
  variable_args_ : List (Int × Nat)
  constant_args_ : List (Int × Nat)
deriving DecidableEq

/-- All typed argument entries of a gate, in container order. -/
def Gate.allTypedArgs (g : Gate) : List (Int × Nat) :=
  g.gate_args_ ++ g.variable_args_ ++ g.constant_args_

/-- Appends an entry to the typed argument map selected by the argument's
variant (the `mutable_args<T>().data().emplace_back(index, arg)` call of
`Gate::AddArg`, pdag.h:533). -/
def Gate.pushTypedArg (v : Variant) (i : Int) (node : Nat) (g : Gate) : Gate :=
  match v with
  | .gateArg => { g with gate_args_ := g.gate_args_ ++ [(i, node)] }
  | .variableArg => { g with variable_args_ := g.variable_args_ ++ [(i, node)] }
  | .constantArg => { g with constant_args_ := g.constant_args_ ++ [(i, node)] }

/-- The state a gate operation can observe and mutate: the gate itself, its
own node index, the graph's running node index counter `Pdag::node_index_`
(pdag.h:1058), and the parent maps of the argument nodes. -/
structure PdagSt where
  gate : Gate
  gateIndex : Nat
  node_index_ : Nat
  parents : ParentMaps
deriving DecidableEq

/-- Modelled from the spec: `Gate::EraseAllArgs` (declared pdag.h:627, body
not in src).  Clears the argument set and all typed maps and erases this
gate's back-reference from every argument node's parent map. -/
def PdagSt.EraseAllArgs (w : PdagSt) : PdagSt :=
  { w with
    gate := { w.gate with
      args_ := [], gate_args_ := [], variable_args_ := [], constant_args_ := [] },
    parents :=
      w.gate.allTypedArgs.foldl (fun ps a => EraseParent ps a.2 w.gateIndex) w.parents }

/-- Modelled from the spec: `Gate::MakeConstant` (declared pdag.h:636, body
not in src).  Forces the state to Unity (for `true`) or Null (for `false`)
and clears all arguments. -/
def PdagSt.MakeConstant (state : Bool) (w : PdagSt) : PdagSt :=
  let w2 := w.EraseAllArgs
  { w2 with gate := { w2.gate with
      state_ := if state then State.kUnityState else State.kNullState } }

/-- First typed-map entry with key `i`, giving the argument node's index
(the lookup performed by `Gate::GetArg`, pdag.h:476-485). -/
def Gate.typedLookup (i : Int) (g : Gate) : Option Nat :=
  (g.allTypedArgs.find? (fun a => a.1 == i)).map (fun a => a.2)

/-- Modelled from the spec: `Gate::EraseArg` (declared pdag.h:624, body not
in src).  Removes `i` from the argument set and the typed maps and erases
this gate's back-reference from the argument node. -/
def PdagSt.EraseArg (i : Int) (w : PdagSt) : PdagSt :=
  { w with
    gate := { w.gate with
      args_ := w.gate.args_.filter (fun j => !(j == i)),
      gate_args_ := w.gate.gate_args_.filter (fun a => !(a.1 == i)),
      variable_args_ := w.gate.variable_args_.filter (fun a => !(a.1 == i)),
      constant_args_ := w.gate.constant_args_.filter (fun a => !(a.1 == i)) },
    parents :=
      match w.gate.typedLookup i with
      | some n => EraseParent w.parents n w.gateIndex
      | none => w.parents }

/-- Modelled from the spec: `Gate::ProcessVoteGateDuplicateArg` (declared
pdag.h:665, body not in src).  Adding a second copy of literal `i` to a
k-of-n VOTE over a set S: if k = 1 the duplicate absorbs; otherwise a fresh
helper gate (VOTE(k-1, S minus i), or the conjunction of S minus i when
k = n) takes over the remaining arguments and this gate becomes an OR (an
AND when k = n) of `i` and the helper.  The helper receives the next index
from the graph's allocator; the remaining arguments' parent entries move
from this gate to the helper. -/
def PdagSt.ProcessVoteGateDuplicateArg (i : Int) (w : PdagSt) : PdagSt :=
  if w.gate.vote_number_ = 1 then w
  else
    let h := w.node_index_ + 1
    let removed := w.gate.allTypedArgs.filter (fun a => !(a.1 == i))
    let newType : Operator :=
      if w.gate.vote_number_ = (w.gate.args_.length : Int) then .kAnd else .kOr
    { w with
      node_index_ := h,
      gate := { w.gate with
        type_ := newType,
        args_ := flatSetInsert i [(h : Int)],
        gate_args_ := w.gate.gate_args_.filter (fun a => a.1 == i) ++ [((h : Int), h)],
        variable_args_ := w.gate.variable_args_.filter (fun a => a.1 == i),
        constant_args_ := w.gate.constant_args_.filter (fun a => a.1 == i) },
      parents := removed.foldl
        (fun ps a => AddParent (EraseParent ps a.2 w.gateIndex) a.2 h) w.parents }

/-- Modelled from the spec: `Gate::ProcessDuplicateArg` (declared
pdag.h:658, body not in src).  AND, OR, NAND, NOR absorb the duplicate;
XOR becomes the Null constant; VOTE delegates to the VOTE duplicate
handler; NOT and NULL are forbidden by the `AddArg` preconditions, so the
gate is returned unchanged there. -/
def PdagSt.ProcessDuplicateArg (i : Int) (w : PdagSt) : PdagSt :=
  match w.gate.type_ with
  | .kAnd | .kOr | .kNand | .kNor => w
  | .kXor => w.MakeConstant false
  | .kVote => w.ProcessVoteGateDuplicateArg i
  | .kNot | .kNull => w

/-- Modelled from the spec: `Gate::ProcessComplementArg` (declared
pdag.h:670, body not in src).  AND and NOR become the Null constant; OR,
NAND and XOR become the Unity constant; VOTE drops the offending existing
argument `-i` and decrements the threshold, degenerating to OR when the
new threshold is 1; NOT and NULL cannot reach this branch by arity. -/
def PdagSt.ProcessComplementArg (i : Int) (w : PdagSt) : PdagSt :=
  match w.gate.type_ with
  | .kAnd | .kNor => w.MakeConstant false
  | .kOr | .kNand | .kXor => w.MakeConstant true
  | .kVote =>
    let w2 := w.EraseArg (-i)
    let k := w.gate.vote_number_ - 1
    if k = 1 then { w2 with gate := { w2.gate with type_ := .kOr, vote_number_ := k } }
    else { w2 with gate := { w2.gate with vote_number_ := k } }
  | .kNot | .kNull => w

/-- `Gate::AddArg` (pdag.h:518-535).  The argument node is given by its
positive index `argIndex` and its variant `v` in place of the typed
shared pointer.  Dispatch: a present `+i` goes to the duplicate handler, a
present `-i` to the complement handler; otherwise `i` is inserted into the
ordered argument set, `(i, arg)` is appended to the matching typed map,
and the gate registers itself as a parent of the argument node. -/
def PdagSt.AddArg (i : Int) (argIndex : Nat) (v : Variant) (w : PdagSt) : PdagSt :=
  if i ∈ w.gate.args_ then w.ProcessDuplicateArg i
  else if -i ∈ w.gate.args_ then w.ProcessComplementArg i
  else
    { w with
      gate := Gate.pushTypedArg v i argIndex { w.gate with args_ := flatSetInsert i w.gate.args_ },
      parents := AddParent w.parents argIndex w.gateIndex }

/-- The six assertions at the top of `Gate::AddArg` (pdag.h:520-525),
stated as one predicate: a nonzero index whose magnitude is the argument
node's index, a Normal gate state, an empty NOT or NULL gate, an XOR gate
with at most one existing argument, and a non-negative vote threshold. -/
def AddArgPre (i : Int) (argIndex : Nat) (w : PdagSt) : Prop :=
  i ≠ 0 ∧ i.natAbs = argIndex ∧ w.gate.state_ = State.kNormalState ∧
  ¬((w.gate.type_ = Operator.kNot ∨ w.gate.type_ = Operator.kNull) ∧ w.gate.args_ ≠ []) ∧
  ¬(w.gate.type_ = Operator.kXor ∧ 1 < w.gate.args_.length) ∧
  0 ≤ w.gate.vote_number_

instance (i : Int) (argIndex : Nat) (w : PdagSt) : Decidable (AddArgPre i argIndex w) := by
  unfold AddArgPre
  infer_instance

/-- `Gate::AddArg` with its assertion sequence (pdag.h:520-525) made
explicit, each `assert` in source order: `none` models the aborted debug
build; a passing run returns the normal result of `AddArg`.  The function
has no other outcome: assertion failures are the only abnormal exits. -/
def PdagSt.AddArgAsserting (i : Int) (argIndex : Nat) (v : Variant) (w : PdagSt) :
    Option PdagSt :=
  if i = 0 then none
  else if i.natAbs ≠ argIndex then none
  else if w.gate.state_ ≠ State.kNormalState then none
  else if (w.gate.type_ = Operator.kNot ∨ w.gate.type_ = Operator.kNull) ∧ w.gate.args_ ≠ []
    then none
  else if w.gate.type_ = Operator.kXor ∧ 1 < w.gate.args_.length then none
  else if w.gate.vote_number_ < 0 then none
  else some (w.AddArg i argIndex v)

/-- Modelled from the spec: `Gate::InvertArgs` (declared pdag.h:568, body
not in src).  Flips the sign of every argument index; the sorted argument
set is rebuilt (negation reverses the ascending order), the typed maps are
updated in place, and parent back-references are untouched because they
are keyed by the index magnitude. -/
def PdagSt.InvertArgs (w : PdagSt) : PdagSt :=
  { w with gate := { w.gate with
      args_ := (w.gate.args_.map (fun j => -j)).reverse,
      gate_args_ := w.gate.gate_args_.map (fun a => (-a.1, a.2)),
      variable_args_ := w.gate.variable_args_.map (fun a => (-a.1, a.2)),
      constant_args_ := w.gate.constant_args_.map (fun a => (-a.1, a.2)) } }

/-- `Gate::GetArgSign` (pdag.h:459-462): 1 when the argument node's
positive index is in the argument set, -1 otherwise.  The C++ asserts that
the queried node has a parent entry for this gate. -/
def PdagSt.GetArgSign (argIndex : Nat) (w : PdagSt) : Int :=
  if (argIndex : Int) ∈ w.gate.args_ then 1 else -1

/-- The three visit-time slots `Node::visits_` (pdag.h:212), all zero
before any traversal. -/
structure Visits where
  v0 : Int
  v1 : Int
  v2 : Int
deriving DecidableEq

/-- The cleared visit record (`Node::ClearVisits`, pdag.h:190). -/
def Visits.init : Visits := ⟨0, 0, 0⟩

/-- `Node::Visit` (pdag.h:148-159): fills the first empty slot of the
first two and returns false, or overwrites the third slot and returns
true. -/
def Visits.Visit (time : Int) (v : Visits) : Bool × Visits :=
  if v.v0 = 0 then (false, { v with v0 := time })
  else if v.v1 = 0 then (false, { v with v1 := time })
  else (true, { v with v2 := time })

/-- `Node::EnterTime` (pdag.h:163). -/
def Visits.EnterTime (v : Visits) : Int := v.v0

/-- `Node::ExitTime` (pdag.h:167). -/
def Visits.ExitTime (v : Visits) : Int := v.v1

/-- `Node::LastVisit` (pdag.h:171). -/
def Visits.LastVisit (v : Visits) : Int := if v.v2 = 0 then v.v1 else v.v2

/-- `Node::Visited` (pdag.h:187): the int-to-bool conversion of the first
slot. -/
def Visits.Visited (v : Visits) : Bool := !(v.v0 == 0)

/-- `Node::Revisited` (pdag.h:183): the int-to-bool conversion of the
third slot. -/
def Visits.Revisited (v : Visits) : Bool := !(v.v2 == 0)

/-- The visit record of a fresh node after a sequence of `Visit` calls
with the given times. -/
def runVisits (ts : List Int) : Visits :=
  ts.foldl (fun v t => (v.Visit t).2) Visits.init

/-- `Pdag::NodeIndexGenerator::operator()` (pdag.h:780): `++node_index_`,
returning the new unique index together with the updated counter. -/
def NodeIndexGenerator (node_index_ : Nat) : Nat × Nat :=
  (node_index_ + 1, node_index_ + 1)

/-- Draws `count` successive indices from the generator, returning them in
order together with the final counter. -/
def allocIndices : Nat → Nat → List Nat × Nat
  | 0, n => ([], n)
  | Nat.succ k, n =>
    let i := NodeIndexGenerator n
    let rest := allocIndices k i.2
    (i.1 :: rest.1, rest.2)

/-- The index layout produced by constructing a `Pdag`. -/
structure PdagIndices where
  constantIndex : Nat
  variableIndices : List Nat
  gateIndices : List Nat
deriving DecidableEq

/-- Modelled from the spec: the `Pdag` constructor (declared pdag.h:802
and pdag.h:827, body not in src).  The allocator starts at zero so that
`++node_index_` hands the constant node index 1; the variable-gathering
pass then allocates one index per variable, and the gate-construction
pass allocates gate indices afterwards, all through
`NodeIndexGenerator`. -/
def buildPdagIndices (numVars numGates : Nat) : PdagIndices :=
  let c := NodeIndexGenerator 0
  let vs := allocIndices numVars c.2
  let gs := allocIndices numGates vs.2
  ⟨c.1, vs.1, gs.1⟩

/-- The graph fields read and written by `Pdag::NullGateRegistrar`
(pdag.h:1062, 1070, 1073); worklist entries stand in for the weak gate
pointers by the gate's index. -/
structure RegistrarSt where
  register_null_gates_ : Bool
  const_gates_ : List Nat
  null_gates_ : List Nat
deriving DecidableEq

/-- `Pdag::NullGateRegistrar::operator()` (pdag.h:788-797).  `gate` is a
NULL-logic gate given by its index; `constant` flags that its single
argument is the constant node.  Nothing happens unless the graph is in
`register_null_gates_` mode; otherwise the gate joins `const_gates_` when
`constant` and `null_gates_` when not. -/
def NullGateRegistrar (gate : Nat) (constant : Bool) (g : RegistrarSt) : RegistrarSt :=
  if !g.register_null_gates_ then g
  else if constant then { g with const_gates_ := g.const_gates_ ++ [gate] }
  else { g with null_gates_ := g.null_gates_ ++ [gate] }

/-- A list of signed indices with no complementary pair, the invariant of
spec section 3 item 4 on a gate's `args_`. -/
def noComplementPair (s : List Int) : Prop := ∀ j ∈ s, -j ∉ s

instance (s : List Int) : Decidable (noComplementPair s) := by
  unfold noComplementPair
  infer_instance

/-- Every argument magnitude has already been handed out by the graph's
allocator, so it is bounded by the running counter. -/
def argsBounded (w : PdagSt) : Prop := ∀ j ∈ w.gate.args_, j.natAbs ≤ w.node_index_

instance (w : PdagSt) : Decidable (argsBounded w) := by
  unfold argsBounded
  infer_instance

/-- A sequence of `AddArg` calls, each a signed index with the argument
node's index and variant. -/
def PdagSt.AddArgs (calls : List (Int × Nat × Variant)) (w : PdagSt) : PdagSt :=
  calls.foldl (fun st c => st.AddArg c.1 c.2.1 c.2.2) w

theorem mem_flatSetInsert {a i : Int} {s : List Int} :
    a ∈ flatSetInsert i s ↔ a = i ∨ a ∈ s := by
  induction s with
  | nil => simp [flatSetInsert]
  | cons x xs ih =>
    simp only [flatSetInsert]
    split
    · simp [List.mem_cons]
    · split
      · rename_i h1 h2
        subst h2
        simp [List.mem_cons]
      · simp [List.mem_cons, ih]
        tauto

theorem AddParent_cons (k : Nat) (gs : List Nat) (rest : ParentMaps) (n g : Nat) :
    AddParent ((k, gs) :: rest) n g =
      if k = n then (k, gs ++ [g]) :: rest else (k, gs) :: AddParent rest n g := rfl

theorem EraseParent_cons (k : Nat) (gs : List Nat) (rest : ParentMaps) (n g : Nat) :
    EraseParent ((k, gs) :: rest) n g =
      (if k = n then (k, gs.filter (fun x => !(x == g))) else (k, gs)) ::
        EraseParent rest n g := rfl

theorem parentsOf_AddParent (ps : ParentMaps) (n g m : Nat) :
    parentsOf (AddParent ps n g) m =
      if m = n then parentsOf ps m ++ [g] else parentsOf ps m := by
  induction ps with
  | nil =>
    by_cases h : m = n
    · subst h
      simp [AddParent, parentsOf]
    · simp [AddParent, parentsOf, h, Ne.symm h]
  | cons e rest ih =>
    obtain ⟨k, gs⟩ := e
    rw [AddParent_cons]
    by_cases hk : k = n
    · subst hk
      rw [if_pos rfl]
      by_cases hm : m = k
      · subst hm
        simp [parentsOf]
      · have hm' : ¬(k = m) := fun hc => hm hc.symm
        simp [parentsOf, hm, hm']
    · rw [if_neg hk]
      by_cases hm : m = k
      · subst hm
        have hmn : ¬(m = n) := fun hc => hk hc
        simp [parentsOf, hmn]
      · have hm' : ¬(k = m) := fun hc => hm hc.symm
        simp [parentsOf, hm', ih]

theorem parentsOf_EraseParent (ps : ParentMaps) (n g m : Nat) :
    parentsOf (EraseParent ps n g) m =
      if m = n then (parentsOf ps m).filter (fun x => !(x == g))
      else parentsOf ps m := by
  induction ps with
  | nil => simp [EraseParent, parentsOf]
  | cons e rest ih =>
    obtain ⟨k, gs⟩ := e
    rw [EraseParent_cons]
    by_cases hk : k = n
    · subst hk
      rw [if_pos rfl]
      by_cases hm : m = k
      · subst hm
        simp [parentsOf]
      · have hm' : ¬(k = m) := fun hc => hm hc.symm
        simp [parentsOf, hm, hm', ih]
    · rw [if_neg hk]
      by_cases hm : m = k
      · subst hm
        have hmn : ¬(m = n) := fun hc => hk hc
        simp [parentsOf, hmn]
      · have hm' : ¬(k = m) := fun hc => hm hc.symm
        simp [parentsOf, hm', ih]

theorem not_mem_parentsOf_EraseParent_self (ps : ParentMaps) (n g : Nat) :
    g ∉ parentsOf (EraseParent ps n g) n := by
  rw [parentsOf_EraseParent, if_pos rfl]
  simp [List.mem_filter]

theorem not_mem_parentsOf_EraseParent (ps : ParentMaps) (n m g : Nat)
    (h : g ∉ parentsOf ps n) : g ∉ parentsOf (EraseParent ps m g) n := by
  rw [parentsOf_EraseParent]
  split
  · simp [List.mem_filter]
  · exact h

theorem foldl_EraseParent_not_mem (l : List (Int × Nat)) (ps : ParentMaps) (g n : Nat)
    (h : n ∈ l.map Prod.snd ∨ g ∉ parentsOf ps n) :
    g ∉ parentsOf (l.foldl (fun ps a => EraseParent ps a.2 g) ps) n := by
  induction l generalizing ps with
  | nil =>
    simp only [List.foldl_nil]
    exact h.resolve_left (by simp)
  | cons a rest ih =>
    simp only [List.foldl_cons]
    apply ih
    rcases h with h | h
    · simp only [List.map_cons, List.mem_cons] at h
      rcases h with h | h
      · right
        subst h
        exact not_mem_parentsOf_EraseParent_self ps a.2 g
      · left
        exact h
    · right
      exact not_mem_parentsOf_EraseParent ps n a.2 g h

theorem pushTypedArg_type (v : Variant) (i : Int) (n : Nat) (g : Gate) :
    (Gate.pushTypedArg v i n g).type_ = g.type_ := by
  cases v <;> rfl

theorem pushTypedArg_args (v : Variant) (i : Int) (n : Nat) (g : Gate) :
    (Gate.pushTypedArg v i n g).args_ = g.args_ := by
  cases v <;> rfl

theorem pushTypedArg_vote (v : Variant) (i : Int) (n : Nat) (g : Gate) :
    (Gate.pushTypedArg v i n g).vote_number_ = g.vote_number_ := by
  cases v <;> rfl

theorem pushTypedArg_allTypedArgs_snd (v : Variant) (i : Int) (n : Nat) (g : Gate) :
    n ∈ ((Gate.pushTypedArg v i n g).allTypedArgs).map Prod.snd := by
  cases v <;> simp [Gate.pushTypedArg, Gate.allTypedArgs]

theorem AddArg_of_mem (w : PdagSt) (i : Int) (argIndex : Nat) (v : Variant)
    (h : i ∈ w.gate.args_) : w.AddArg i argIndex v = w.ProcessDuplicateArg i := by
  simp [PdagSt.AddArg, h]

theorem AddArg_of_mem_neg (w : PdagSt) (i : Int) (argIndex : Nat) (v : Variant)
    (h1 : i ∉ w.gate.args_) (h2 : -i ∈ w.gate.args_) :
    w.AddArg i argIndex v = w.ProcessComplementArg i := by
  simp [PdagSt.AddArg, h1, h2]

theorem AddArg_of_not_mem (w : PdagSt) (i : Int) (argIndex : Nat) (v : Variant)
    (h1 : i ∉ w.gate.args_) (h2 : -i ∉ w.gate.args_) :
    w.AddArg i argIndex v =
      { w with
        gate := Gate.pushTypedArg v i argIndex
          { w.gate with args_ := flatSetInsert i w.gate.args_ },
        parents := AddParent w.parents argIndex w.gateIndex } := by
  simp [PdagSt.AddArg, h1, h2]

/-- An empty AND gate in Normal state, for concrete witnesses. -/
def sampleAndGate : Gate := ⟨Operator.kAnd, State.kNormalState, 0, [], [], [], []⟩

/-- A world holding `sampleAndGate` as gate number 9 of a graph whose
index allocator has reached 9, with no parent entries registered yet. -/
def sampleW : PdagSt := ⟨sampleAndGate, 9, 9, []⟩

/-- C1: for a gate in Normal state and a signed index `i` whose magnitude
is the argument node's index, `AddArg` takes the duplicate branch when
`+i` is already in the argument set and the complement branch when `-i`
is, appending nothing in either case; otherwise it inserts `i` into the
ordered argument set, appends the `(i, node)` pair to the typed map of
the argument's variant, and registers the gate as a parent of the
argument node. -/
theorem AddArg_dispatch (w : PdagSt) (i : Int) (argIndex : Nat) (v : Variant)
    (hnorm : w.gate.state_ = State.kNormalState) (habs : i.natAbs = argIndex) :
    (i ∈ w.gate.args_ → w.AddArg i argIndex v = w.ProcessDuplicateArg i) ∧
    (i ∉ w.gate.args_ → -i ∈ w.gate.args_ →
      w.AddArg i argIndex v = w.ProcessComplementArg i) ∧
    (i ∉ w.gate.args_ → -i ∉ w.gate.args_ →
      (w.AddArg i argIndex v).gate.args_ = flatSetInsert i w.gate.args_ ∧
      (w.AddArg i argIndex v).gate =
        Gate.pushTypedArg v i argIndex
          { w.gate with args_ := flatSetInsert i w.gate.args_ } ∧
      parentsOf (w.AddArg i argIndex v).parents argIndex =
        parentsOf w.parents argIndex ++ [w.gateIndex] ∧
      ∀ m : Nat, m ≠ argIndex →
        parentsOf (w.AddArg i argIndex v).parents m = parentsOf w.parents m) := by
  refine ⟨fun h1 => AddArg_of_mem w i argIndex v h1,
    fun h1 h2 => AddArg_of_mem_neg w i argIndex v h1 h2, fun h1 h2 => ?_⟩
  rw [AddArg_of_not_mem w i argIndex v h1 h2]
  refine ⟨pushTypedArg_args v i argIndex _, rfl, ?_, fun m hm => ?_⟩
  · rw [parentsOf_AddParent, if_pos rfl]
  · rw [parentsOf_AddParent, if_neg hm]

theorem AddArg_dispatch_witness :
    (sampleW.AddArg 3 3 Variant.variableArg).gate.args_ =
      flatSetInsert 3 sampleW.gate.args_ :=
  ((AddArg_dispatch sampleW 3 3 Variant.variableArg rfl rfl).2.2
    (by decide) (by decide)).1

/-- C4: on an AND, OR, NAND or NOR gate in Normal state, adding the same
signed argument twice yields exactly the state reached by adding it once,
and the argument node carries exactly one parent entry for the gate. -/
theorem AddArg_duplicate_idempotent (w : PdagSt) (i : Int) (argIndex : Nat) (v : Variant)
    (hop : w.gate.type_ = Operator.kAnd ∨ w.gate.type_ = Operator.kOr ∨
      w.gate.type_ = Operator.kNand ∨ w.gate.type_ = Operator.kNor)
    (hnorm : w.gate.state_ = State.kNormalState)
    (h1 : i ∉ w.gate.args_) (h2 : -i ∉ w.gate.args_)
    (hpar : w.gateIndex ∉ parentsOf w.parents argIndex) :
    (w.AddArg i argIndex v).AddArg i argIndex v = w.AddArg i argIndex v ∧
    (parentsOf ((w.AddArg i argIndex v).AddArg i argIndex v).parents argIndex).count
      w.gateIndex = 1 := by
  have hpath := AddArg_of_not_mem w i argIndex v h1 h2
  have hmem : i ∈ (w.AddArg i argIndex v).gate.args_ := by
    rw [hpath]
    simp only [pushTypedArg_args]
    exact mem_flatSetInsert.mpr (Or.inl rfl)
  have htype : (w.AddArg i argIndex v).gate.type_ = w.gate.type_ := by
    rw [hpath]
    exact pushTypedArg_type v i argIndex _
  have hdup : (w.AddArg i argIndex v).ProcessDuplicateArg i = w.AddArg i argIndex v := by
    unfold PdagSt.ProcessDuplicateArg
    rcases hop with h | h | h | h <;> rw [htype, h]
  have hidem : (w.AddArg i argIndex v).AddArg i argIndex v = w.AddArg i argIndex v := by
    rw [AddArg_of_mem _ i argIndex v hmem, hdup]
  refine ⟨hidem, ?_⟩
  rw [hidem, hpath]
  simp [parentsOf_AddParent, List.count_append, List.count_eq_zero.mpr hpar]

theorem AddArg_duplicate_idempotent_witness :
    (sampleW.AddArg 3 3 Variant.variableArg).AddArg 3 3 Variant.variableArg =
      sampleW.AddArg 3 3 Variant.variableArg ∧
    (parentsOf ((sampleW.AddArg 3 3 Variant.variableArg).AddArg 3 3
      Variant.variableArg).parents 3).count sampleW.gateIndex = 1 :=
  AddArg_duplicate_idempotent sampleW 3 3 Variant.variableArg (Or.inl rfl) rfl
    (by decide) (by decide) (by decide)

/-- C6: the NULL-gate registrar enqueues nothing when the graph is not in
`register_null_gates_` mode; otherwise it appends the gate to the
constant-gate worklist when its single argument is the constant and to
the null-gate worklist when it is not, and touches nothing else. -/
theorem NullGateRegistrar_cases (gate : Nat) (constant : Bool) (g : RegistrarSt) :
    (g.register_null_gates_ = false → NullGateRegistrar gate constant g = g) ∧
    (g.register_null_gates_ = true → constant = true →
      NullGateRegistrar gate constant g =
        { g with const_gates_ := g.const_gates_ ++ [gate] }) ∧
    (g.register_null_gates_ = true → constant = false →
      NullGateRegistrar gate constant g =
        { g with null_gates_ := g.null_gates_ ++ [gate] }) := by
  refine ⟨fun h => ?_, fun h hc => ?_, fun h hc => ?_⟩
  · simp [NullGateRegistrar, h]
  · simp [NullGateRegistrar, h, hc]
  · simp [NullGateRegistrar, h, hc]

theorem NullGateRegistrar_cases_witness :
    NullGateRegistrar 5 true ⟨true, [], []⟩ = ⟨true, [5], []⟩ :=
  (NullGateRegistrar_cases 5 true ⟨true, [], []⟩).2.1 rfl rfl

/-- C7: the assertion sequence of `AddArg` passes exactly when the six
checked preconditions hold (nonzero index, magnitude equal to the
argument node's index, Normal state, empty NOT or NULL gate, XOR with at
most one existing argument, non-negative vote threshold), and a call has
no outcome other than an assertion abort or the normal `AddArg` result:
there is no reported error. -/
theorem AddArgAsserting_exact (w : PdagSt) (i : Int) (argIndex : Nat) (v : Variant) :
    (w.AddArgAsserting i argIndex v = some (w.AddArg i argIndex v) ↔
      AddArgPre i argIndex w) ∧
    (w.AddArgAsserting i argIndex v = none ∨
      w.AddArgAsserting i argIndex v = some (w.AddArg i argIndex v)) := by
  unfold PdagSt.AddArgAsserting AddArgPre
  constructor
  · split_ifs with h1 h2 h3 h4 h5 h6 <;> simp_all [Int.not_lt]
  · split_ifs <;> simp

/-- C10: for an argument node registered as such (its parent map holds an
entry for the gate), under the no-complement-pair invariant `GetArgSign`
returns exactly the sign with which the gate references the node: 1 when
the positive index is in the argument set, -1 when the negative one is. -/
theorem GetArgSign_sign (w : PdagSt) (argIndex : Nat) (s : Int)
    (hparent : w.gateIndex ∈ parentsOf w.parents argIndex)
    (hnp : noComplementPair w.gate.args_)
    (hs : s = 1 ∨ s = -1) (hmem : s * (argIndex : Int) ∈ w.gate.args_) :
    w.GetArgSign argIndex = s := by
  rcases hs with rfl | rfl
  · rw [PdagSt.GetArgSign, if_pos (by simpa using hmem)]
  · have hneg : -(argIndex : Int) ∈ w.gate.args_ := by simpa using hmem
    have hnot : (argIndex : Int) ∉ w.gate.args_ := fun hcon => hnp _ hcon hneg
    rw [PdagSt.GetArgSign, if_neg hnot]

/-- A gate referencing node 3 negatively, with the parent entry for gate 9
registered on node 3. -/
def sampleNegW : PdagSt :=
  ⟨⟨Operator.kOr, State.kNormalState, 0, [-3], [], [(-3, 3)], []⟩, 9, 9, [(3, [9])]⟩

theorem GetArgSign_sign_witness : sampleNegW.GetArgSign 3 = -1 :=
  GetArgSign_sign sampleNegW 3 (-1) (by decide) (by decide) (Or.inr rfl) (by decide)

theorem MakeConstant_state_false (w : PdagSt) :
    (w.MakeConstant false).gate.state_ = State.kNullState := rfl

theorem MakeConstant_state_true (w : PdagSt) :
    (w.MakeConstant true).gate.state_ = State.kUnityState := rfl

theorem MakeConstant_args (b : Bool) (w : PdagSt) :
    (w.MakeConstant b).gate.args_ = [] := rfl

theorem MakeConstant_parents (b : Bool) (w : PdagSt) :
    (w.MakeConstant b).parents =
      w.gate.allTypedArgs.foldl (fun ps a => EraseParent ps a.2 w.gateIndex) w.parents := rfl

theorem ProcessComplementArg_null (w : PdagSt) (i : Int)
    (h : w.gate.type_ = Operator.kAnd ∨ w.gate.type_ = Operator.kNor) :
    w.ProcessComplementArg i = w.MakeConstant false := by
  unfold PdagSt.ProcessComplementArg
  rcases h with h | h <;> rw [h]

theorem ProcessComplementArg_unity (w : PdagSt) (i : Int)
    (h : w.gate.type_ = Operator.kOr ∨ w.gate.type_ = Operator.kNand ∨
      w.gate.type_ = Operator.kXor) :
    w.ProcessComplementArg i = w.MakeConstant true := by
  unfold PdagSt.ProcessComplementArg
  rcases h with h | h | h <;> rw [h]

/-- C3: on an AND, OR, NAND, NOR or XOR gate in Normal state, adding an
argument and then its complement leaves the gate in a non-Normal state
with an empty argument set — Null for AND and NOR, Unity for OR, NAND and
XOR — and the argument node retains no parent entry for the gate. -/
theorem AddArg_complement_collapse (w : PdagSt) (i : Int) (argIndex : Nat)
    (v v2 : Variant) (hnorm : w.gate.state_ = State.kNormalState)
    (hop : w.gate.type_ = Operator.kAnd ∨ w.gate.type_ = Operator.kNor ∨
      w.gate.type_ = Operator.kOr ∨ w.gate.type_ = Operator.kNand ∨
      w.gate.type_ = Operator.kXor)
    (hi : i ≠ 0) (h1 : i ∉ w.gate.args_) (h2 : -i ∉ w.gate.args_) :
    ((w.AddArg i argIndex v).AddArg (-i) argIndex v2).gate.state_ =
      (if w.gate.type_ = Operator.kAnd ∨ w.gate.type_ = Operator.kNor
        then State.kNullState else State.kUnityState) ∧
    ((w.AddArg i argIndex v).AddArg (-i) argIndex v2).gate.args_ = [] ∧
    w.gateIndex ∉
      parentsOf ((w.AddArg i argIndex v).AddArg (-i) argIndex v2).parents argIndex := by
  have hpath := AddArg_of_not_mem w i argIndex v h1 h2
  have hargs1 : (w.AddArg i argIndex v).gate.args_ = flatSetInsert i w.gate.args_ := by
    rw [hpath]
    exact pushTypedArg_args v i argIndex _
  have htype1 : (w.AddArg i argIndex v).gate.type_ = w.gate.type_ := by
    rw [hpath]
    exact pushTypedArg_type v i argIndex _
  have hgi : (w.AddArg i argIndex v).gateIndex = w.gateIndex := by rw [hpath]
  have hsnd : argIndex ∈ ((w.AddArg i argIndex v).gate.allTypedArgs).map Prod.snd := by
    rw [hpath]
    exact pushTypedArg_allTypedArgs_snd v i argIndex _
  have hni : -i ∉ (w.AddArg i argIndex v).gate.args_ := by
    rw [hargs1]
    intro hc
    rcases mem_flatSetInsert.mp hc with hc | hc
    · exact hi (by omega)
    · exact h2 hc
  have hyi : -(-i) ∈ (w.AddArg i argIndex v).gate.args_ := by
    rw [hargs1, neg_neg]
    exact mem_flatSetInsert.mpr (Or.inl rfl)
  have hsecond := AddArg_of_mem_neg (w.AddArg i argIndex v) (-i) argIndex v2 hni hyi
  have hnotpar : ∀ b : Bool, w.gateIndex ∉
      parentsOf ((w.AddArg i argIndex v).MakeConstant b).parents argIndex := by
    intro b
    rw [MakeConstant_parents, hgi]
    exact foldl_EraseParent_not_mem _ _ _ _ (Or.inl hsnd)
  by_cases hAN : w.gate.type_ = Operator.kAnd ∨ w.gate.type_ = Operator.kNor
  · have hAN1 : (w.AddArg i argIndex v).gate.type_ = Operator.kAnd ∨
        (w.AddArg i argIndex v).gate.type_ = Operator.kNor := by
      rcases hAN with h | h
      · exact Or.inl (htype1.trans h)
      · exact Or.inr (htype1.trans h)
    rw [hsecond, ProcessComplementArg_null _ _ hAN1]
    refine ⟨?_, MakeConstant_args false _, hnotpar false⟩
    rw [if_pos hAN]
    exact MakeConstant_state_false _
  · have hU : w.gate.type_ = Operator.kOr ∨ w.gate.type_ = Operator.kNand ∨
        w.gate.type_ = Operator.kXor := by tauto
    have hU1 : (w.AddArg i argIndex v).gate.type_ = Operator.kOr ∨
        (w.AddArg i argIndex v).gate.type_ = Operator.kNand ∨
        (w.AddArg i argIndex v).gate.type_ = Operator.kXor := by
      rcases hU with h | h | h
      · exact Or.inl (htype1.trans h)
      · exact Or.inr (Or.inl (htype1.trans h))
      · exact Or.inr (Or.inr (htype1.trans h))
    rw [hsecond, ProcessComplementArg_unity _ _ hU1]
    refine ⟨?_, MakeConstant_args true _, hnotpar true⟩
    rw [if_neg hAN]
    exact MakeConstant_state_true _

theorem AddArg_complement_collapse_witness :
    ((sampleW.AddArg 3 3 Variant.variableArg).AddArg (-3) 3
      Variant.variableArg).gate.state_ =
      (if sampleW.gate.type_ = Operator.kAnd ∨ sampleW.gate.type_ = Operator.kNor
        then State.kNullState else State.kUnityState) ∧
    ((sampleW.AddArg 3 3 Variant.variableArg).AddArg (-3) 3
      Variant.variableArg).gate.args_ = [] ∧
    sampleW.gateIndex ∉
      parentsOf (((sampleW.AddArg 3 3 Variant.variableArg).AddArg (-3) 3
        Variant.variableArg)).parents 3 :=
  AddArg_complement_collapse sampleW 3 3 Variant.variableArg Variant.variableArg rfl
    (Or.inl rfl) (by decide) (by decide) (by decide)

theorem map_negfst_involutive (l : List (Int × Nat)) :
    l.map ((fun a : Int × Nat => (-a.1, a.2)) ∘ fun a : Int × Nat => (-a.1, a.2)) = l := by
  induction l with
  | nil => rfl
  | cons x xs ih =>
    obtain ⟨x1, x2⟩ := x
    simp [ih, Function.comp]

/-- C8: on a gate with no constant arguments, inverting all arguments
twice restores the gate exactly; one inversion negates every argument
index (reversing the sorted set), and the parent maps are untouched by
both calls. -/
theorem InvertArgs_roundtrip (w : PdagSt) (hconst : w.gate.constant_args_ = []) :
    w.InvertArgs.InvertArgs = w ∧
    w.InvertArgs.gate.args_ = (w.gate.args_.map (fun j => -j)).reverse ∧
    w.InvertArgs.parents = w.parents ∧
    w.InvertArgs.InvertArgs.parents = w.parents := by
  refine ⟨?_, rfl, rfl, rfl⟩
  obtain ⟨⟨t, s, vn, a, ga, va, ca⟩, gi, ni, ps⟩ := w
  simp only [PdagSt.InvertArgs, List.map_reverse, List.reverse_reverse, List.map_map]
  simp [neg_neg, Function.comp, List.map_id]
  exact ⟨map_negfst_involutive ga, map_negfst_involutive va, map_negfst_involutive ca⟩

theorem InvertArgs_roundtrip_witness :
    sampleNegW.InvertArgs.InvertArgs = sampleNegW ∧
    sampleNegW.InvertArgs.gate.args_ =
      (sampleNegW.gate.args_.map (fun j => -j)).reverse ∧
    sampleNegW.InvertArgs.parents = sampleNegW.parents ∧
    sampleNegW.InvertArgs.InvertArgs.parents = sampleNegW.parents :=
  InvertArgs_roundtrip sampleNegW rfl

theorem Visit_full (t : Int) (vv : Visits) (h0 : vv.v0 ≠ 0) (h1 : vv.v1 ≠ 0) :
    vv.Visit t = (true, { vv with v2 := t }) := by
  rw [Visits.Visit, if_neg h0, if_neg h1]

theorem foldVisits_full (rest : List Int) (vv : Visits) (h0 : vv.v0 ≠ 0) (h1 : vv.v1 ≠ 0) :
    rest.foldl (fun v t => (v.Visit t).2) vv = { vv with v2 := rest.getLastD vv.v2 } := by
  induction rest generalizing vv with
  | nil =>
    cases vv
    rfl
  | cons t rest ih =>
    simp only [List.foldl_cons]
    rw [Visit_full t vv h0 h1, ih { vv with v2 := t } h0 h1, List.getLastD_cons]

theorem runVisits_cons2 (a b : Int) (rest : List Int) (ha : a ≠ 0) :
    runVisits (a :: b :: rest) = rest.foldl (fun v t => (v.Visit t).2) ⟨a, b, 0⟩ := by
  simp only [runVisits, List.foldl_cons]
  congr 1
  have e1 : (Visits.init.Visit a).2 = ⟨a, 0, 0⟩ := by
    simp [Visits.Visit, Visits.init]
  rw [e1]
  simp [Visits.Visit, ha]

theorem runVisits_eq (ts : List Int) (h : ∀ t ∈ ts, 0 < t) :
    runVisits ts = ⟨ts.headD 0, (ts.drop 1).headD 0, (ts.drop 2).getLastD 0⟩ := by
  match ts with
  | [] => rfl
  | [a] => simp [runVisits, Visits.Visit, Visits.init]
  | a :: b :: rest =>
    have ha : a ≠ 0 := ne_of_gt (h a (by simp))
    have hb : b ≠ 0 := ne_of_gt (h b (by simp))
    rw [runVisits_cons2 a b rest ha, foldVisits_full rest ⟨a, b, 0⟩ ha hb]
    simp

theorem getLastD_pos (l : List Int) (d : Int) (hd : 0 < d) (h : ∀ t ∈ l, 0 < t) :
    0 < l.getLastD d := by
  induction l generalizing d with
  | nil => simpa using hd
  | cons y l ih =>
    rw [List.getLastD_cons]
    exact ih y (h y (by simp)) (fun t ht => h t (by simp [ht]))

/-- C9: starting from a fresh node, `Visit` with positive times returns
false on the first and second calls — recording them as the enter and
exit times reported by `EnterTime` and `ExitTime` — and true on the third
and every later call, overwriting the last-visit slot; `Visited` is true
iff at least one call was made and `Revisited` iff at least three were. -/
theorem Visit_protocol (ts : List Int) (t : Int) (hts : ∀ x ∈ ts, 0 < x) (ht : 0 < t) :
    ((runVisits ts).Visit t).1 = decide (2 ≤ ts.length) ∧
    (runVisits ts).EnterTime = ts.headD 0 ∧
    (runVisits ts).ExitTime = (ts.drop 1).headD 0 ∧
    (runVisits ts).v2 = (ts.drop 2).getLastD 0 ∧
    (runVisits ts).Visited = decide (1 ≤ ts.length) ∧
    (runVisits ts).Revisited = decide (3 ≤ ts.length) := by
  rw [runVisits_eq ts hts]
  match ts, hts with
  | [], _ =>
    simp [Visits.Visit, Visits.EnterTime, Visits.ExitTime, Visits.Visited,
      Visits.Revisited]
  | [a], hts =>
    have ha : a ≠ 0 := ne_of_gt (hts a (by simp))
    simp [Visits.Visit, Visits.EnterTime, Visits.ExitTime, Visits.Visited,
      Visits.Revisited, ha]
  | a :: b :: rest, hts =>
    have ha : a ≠ 0 := ne_of_gt (hts a (by simp))
    have hb : b ≠ 0 := ne_of_gt (hts b (by simp))
    simp only [List.headD_cons, List.drop_succ_cons, List.drop_zero, List.length_cons]
    refine ⟨?_, by trivial, by trivial, by trivial, ?_, ?_⟩
    · have e : ((⟨a, b, rest.getLastD 0⟩ : Visits).Visit t).1 = true := by
        simp [Visits.Visit, ha, hb]
      rw [e, eq_comm]
      exact decide_eq_true (by omega)
    · have e : (⟨a, b, rest.getLastD 0⟩ : Visits).Visited = true := by
        simp [Visits.Visited, ha]
      rw [e, eq_comm]
      exact decide_eq_true (by omega)
    · match rest, hts with
      | [], _ => simp [Visits.Revisited]
      | c :: rest2, hts =>
        have hlast : 0 < rest2.getLastD c :=
          getLastD_pos rest2 c (hts c (by simp)) (fun x hx => hts x (by simp [hx]))
        have hne : rest2.getLastD c ≠ 0 := by omega
        have e : (⟨a, b, (c :: rest2).getLastD 0⟩ : Visits).Revisited = true := by
          unfold Visits.Revisited
          rw [List.getLastD_cons]
          simp only [Bool.not_eq_true', beq_eq_false_iff_ne]
          exact hne
        rw [e, eq_comm]
        exact decide_eq_true (by simp only [List.length_cons]; omega)

theorem Visit_protocol_witness :
    ((runVisits [1, 2, 3]).Visit 5).1 = decide (2 ≤ ([1, 2, 3] : List Int).length) ∧
    (runVisits [1, 2, 3]).EnterTime = ([1, 2, 3] : List Int).headD 0 ∧
    (runVisits [1, 2, 3]).ExitTime = (([1, 2, 3] : List Int).drop 1).headD 0 ∧
    (runVisits [1, 2, 3]).v2 = (([1, 2, 3] : List Int).drop 2).getLastD 0 ∧
    (runVisits [1, 2, 3]).Visited = decide (1 ≤ ([1, 2, 3] : List Int).length) ∧
    (runVisits [1, 2, 3]).Revisited = decide (3 ≤ ([1, 2, 3] : List Int).length) :=
  Visit_protocol [1, 2, 3] 5 (by decide) (by decide)

theorem allocIndices_eq (k n : Nat) : allocIndices k n = (List.range' (n + 1) k, n + k) := by
  induction k generalizing n with
  | zero => simp [allocIndices]
  | succ k ih =>
    simp only [allocIndices, NodeIndexGenerator]
    rw [ih, List.range'_succ]
    simp only [Prod.mk.injEq]
    exact ⟨by trivial, by omega⟩

theorem range'_pairwise_lt (s n : Nat) : List.Pairwise (· < ·) (List.range' s n) := by
  induction n generalizing s with
  | zero => simp
  | succ n ih =>
    rw [List.range'_succ]
    refine List.Pairwise.cons ?_ (ih (s + 1))
    intro x hx
    rw [List.mem_range'_1] at hx
    omega

/-- C5: after graph construction the constant node has index 1, the
per-graph allocator hands out strictly increasing (hence unique) indices,
the variable indices are exactly the contiguous block [2, 2+V), and
every gate index is at least 2+V. -/
theorem Pdag_index_blocks (V G : Nat) :
    (buildPdagIndices V G).constantIndex = 1 ∧
    (buildPdagIndices V G).variableIndices = List.range' 2 V ∧
    (∀ x ∈ (buildPdagIndices V G).variableIndices, 2 ≤ x ∧ x < 2 + V) ∧
    (∀ g ∈ (buildPdagIndices V G).gateIndices, 2 + V ≤ g) ∧
    List.Pairwise (· < ·)
      ((buildPdagIndices V G).constantIndex ::
        ((buildPdagIndices V G).variableIndices ++ (buildPdagIndices V G).gateIndices)) ∧
    (∀ n : Nat, n < (NodeIndexGenerator n).1 ∧
      (NodeIndexGenerator n).2 = (NodeIndexGenerator n).1) := by
  have h2V : 1 + V + 1 = 2 + V := by omega
  have hb : buildPdagIndices V G = ⟨1, List.range' 2 V, List.range' (2 + V) G⟩ := by
    unfold buildPdagIndices NodeIndexGenerator
    simp only [allocIndices_eq, h2V]
  rw [hb]
  refine ⟨rfl, rfl, ?_, ?_, ?_, fun n => ⟨Nat.lt_succ_self n, rfl⟩⟩
  · intro x hx
    rw [List.mem_range'_1] at hx
    omega
  · intro g hg
    rw [List.mem_range'_1] at hg
    omega
  · have happ := List.range'_append 2 V G 1
    simp only [one_mul] at happ
    have hcons : (1 : Nat) :: (List.range' 2 V ++ List.range' (2 + V) G) =
        List.range' 1 (G + V + 1) := by
      rw [happ, List.range'_succ]
    rw [hcons]
    exact range'_pairwise_lt 1 (G + V + 1)

theorem EraseArg_args (i : Int) (w : PdagSt) :
    (w.EraseArg i).gate.args_ = w.gate.args_.filter (fun j => !(j == i)) := rfl

theorem MakeConstant_node_index (b : Bool) (w : PdagSt) :
    (w.MakeConstant b).node_index_ = w.node_index_ := rfl

theorem MakeConstant_inv (b : Bool) (w : PdagSt) :
    noComplementPair (w.MakeConstant b).gate.args_ ∧
    argsBounded (w.MakeConstant b) ∧
    w.node_index_ ≤ (w.MakeConstant b).node_index_ := by
  refine ⟨?_, ?_, le_of_eq (MakeConstant_node_index b w).symm⟩
  · intro j hj
    rw [MakeConstant_args] at hj
    simp at hj
  · intro j hj
    rw [MakeConstant_args] at hj
    simp at hj

theorem ProcessDuplicateArg_pass (w : PdagSt) (i : Int)
    (h : w.gate.type_ = Operator.kAnd ∨ w.gate.type_ = Operator.kOr ∨
      w.gate.type_ = Operator.kNand ∨ w.gate.type_ = Operator.kNor ∨
      w.gate.type_ = Operator.kNot ∨ w.gate.type_ = Operator.kNull) :
    w.ProcessDuplicateArg i = w := by
  unfold PdagSt.ProcessDuplicateArg
  rcases h with h | h | h | h | h | h <;> rw [h]

theorem ProcessDuplicateArg_xor (w : PdagSt) (i : Int)
    (h : w.gate.type_ = Operator.kXor) :
    w.ProcessDuplicateArg i = w.MakeConstant false := by
  unfold PdagSt.ProcessDuplicateArg
  rw [h]

theorem ProcessDuplicateArg_vote (w : PdagSt) (i : Int)
    (h : w.gate.type_ = Operator.kVote) :
    w.ProcessDuplicateArg i = w.ProcessVoteGateDuplicateArg i := by
  unfold PdagSt.ProcessDuplicateArg
  rw [h]

theorem ProcessComplementArg_pass (w : PdagSt) (i : Int)
    (h : w.gate.type_ = Operator.kNot ∨ w.gate.type_ = Operator.kNull) :
    w.ProcessComplementArg i = w := by
  unfold PdagSt.ProcessComplementArg
  rcases h with h | h <;> rw [h]

theorem ProcessComplementArg_vote_proj (w : PdagSt) (i : Int)
    (h : w.gate.type_ = Operator.kVote) :
    (w.ProcessComplementArg i).gate.args_ =
      w.gate.args_.filter (fun j => !(j == -i)) ∧
    (w.ProcessComplementArg i).node_index_ = w.node_index_ := by
  unfold PdagSt.ProcessComplementArg
  rw [h]
  dsimp only
  split
  · exact ⟨rfl, rfl⟩
  · exact ⟨rfl, rfl⟩

theorem ProcessVoteGateDuplicateArg_cases (w : PdagSt) (i : Int) :
    (w.gate.vote_number_ = 1 ∧ w.ProcessVoteGateDuplicateArg i = w) ∨
    ((w.ProcessVoteGateDuplicateArg i).gate.args_ =
        flatSetInsert i [((w.node_index_ + 1 : Nat) : Int)] ∧
      (w.ProcessVoteGateDuplicateArg i).node_index_ = w.node_index_ + 1) := by
  by_cases h : w.gate.vote_number_ = 1
  · left
    refine ⟨h, ?_⟩
    unfold PdagSt.ProcessVoteGateDuplicateArg
    rw [if_pos h]
  · right
    unfold PdagSt.ProcessVoteGateDuplicateArg
    rw [if_neg h]
    exact ⟨rfl, rfl⟩

theorem AddArg_step_inv (w : PdagSt) (i : Int) (argIndex : Nat) (v : Variant)
    (hi : i ≠ 0) (hib : i.natAbs ≤ w.node_index_)
    (hnp : noComplementPair w.gate.args_) (hb : argsBounded w) :
    noComplementPair (w.AddArg i argIndex v).gate.args_ ∧
    argsBounded (w.AddArg i argIndex v) ∧
    w.node_index_ ≤ (w.AddArg i argIndex v).node_index_ := by
  by_cases hd : i ∈ w.gate.args_
  · rw [AddArg_of_mem w i argIndex v hd]
    cases htype : w.gate.type_ with
    | kAnd => rw [ProcessDuplicateArg_pass w i (by tauto)]; exact ⟨hnp, hb, Nat.le_refl _⟩
    | kOr => rw [ProcessDuplicateArg_pass w i (by tauto)]; exact ⟨hnp, hb, Nat.le_refl _⟩
    | kNand => rw [ProcessDuplicateArg_pass w i (by tauto)]; exact ⟨hnp, hb, Nat.le_refl _⟩
    | kNor => rw [ProcessDuplicateArg_pass w i (by tauto)]; exact ⟨hnp, hb, Nat.le_refl _⟩
    | kNot => rw [ProcessDuplicateArg_pass w i (by tauto)]; exact ⟨hnp, hb, Nat.le_refl _⟩
    | kNull => rw [ProcessDuplicateArg_pass w i (by tauto)]; exact ⟨hnp, hb, Nat.le_refl _⟩
    | kXor => rw [ProcessDuplicateArg_xor w i htype]; exact MakeConstant_inv false w
    | kVote =>
      rw [ProcessDuplicateArg_vote w i htype]
      rcases ProcessVoteGateDuplicateArg_cases w i with ⟨_, heq⟩ | ⟨hargs, hni⟩
      · rw [heq]
        exact ⟨hnp, hb, Nat.le_refl _⟩
      · have hmag := hb i hd
        refine ⟨?_, ?_, by rw [hni]; omega⟩
        · intro j hj hcon
          rw [hargs, mem_flatSetInsert] at hj hcon
          simp only [List.mem_singleton] at hj hcon
          rcases hj with rfl | rfl <;> rcases hcon with hc | hc <;> omega
        · intro j hj
          rw [hargs, mem_flatSetInsert] at hj
          simp only [List.mem_singleton] at hj
          rw [hni]
          rcases hj with rfl | rfl <;> omega
  · by_cases hc : -i ∈ w.gate.args_
    · rw [AddArg_of_mem_neg w i argIndex v hd hc]
      cases htype : w.gate.type_ with
      | kAnd => rw [ProcessComplementArg_null w i (by tauto)]; exact MakeConstant_inv false w
      | kNor => rw [ProcessComplementArg_null w i (by tauto)]; exact MakeConstant_inv false w
      | kOr => rw [ProcessComplementArg_unity w i (by tauto)]; exact MakeConstant_inv true w
      | kNand => rw [ProcessComplementArg_unity w i (by tauto)]; exact MakeConstant_inv true w
      | kXor => rw [ProcessComplementArg_unity w i (by tauto)]; exact MakeConstant_inv true w
      | kNot => rw [ProcessComplementArg_pass w i (by tauto)]; exact ⟨hnp, hb, Nat.le_refl _⟩
      | kNull => rw [ProcessComplementArg_pass w i (by tauto)]; exact ⟨hnp, hb, Nat.le_refl _⟩
      | kVote =>
        obtain ⟨hargs, hni⟩ := ProcessComplementArg_vote_proj w i htype
        refine ⟨?_, ?_, le_of_eq hni.symm⟩
        · intro j hj hcon
          rw [hargs] at hj hcon
          exact hnp j (List.mem_of_mem_filter hj) (List.mem_of_mem_filter hcon)
        · intro j hj
          rw [hni, hargs] at *
          exact hb j (List.mem_of_mem_filter hj)
    · rw [AddArg_of_not_mem w i argIndex v hd hc]
      refine ⟨?_, ?_, Nat.le_refl _⟩
      · intro j hj hcon
        simp only [pushTypedArg_args] at hj hcon
        rw [mem_flatSetInsert] at hj hcon
        rcases hj with rfl | hj
        · rcases hcon with hc2 | hc2
          · omega
          · exact hc hc2
        · rcases hcon with hc2 | hc2
          · exact hc (by rw [show -i = j by omega]; exact hj)
          · exact hnp j hj hc2
      · intro j hj
        simp only [pushTypedArg_args] at hj
        rw [mem_flatSetInsert] at hj
        rcases hj with rfl | hj
        · exact hib
        · exact hb j hj

theorem AddArgs_inv (calls : List (Int × Nat × Variant)) (w : PdagSt)
    (hnp : noComplementPair w.gate.args_) (hb : argsBounded w)
    (hcalls : ∀ c ∈ calls, c.1 ≠ 0 ∧ c.1.natAbs ≤ w.node_index_) :
    noComplementPair (w.AddArgs calls).gate.args_ ∧
    argsBounded (w.AddArgs calls) ∧
    w.node_index_ ≤ (w.AddArgs calls).node_index_ := by
  induction calls generalizing w with
  | nil => exact ⟨hnp, hb, Nat.le_refl _⟩
  | cons c rest ih =>
    obtain ⟨hc0, hcb⟩ := hcalls c (by simp)
    obtain ⟨h1, h2, h3⟩ := AddArg_step_inv w c.1 c.2.1 c.2.2 hc0 hcb hnp hb
    have hrest : ∀ d ∈ rest, d.1 ≠ 0 ∧
        d.1.natAbs ≤ (w.AddArg c.1 c.2.1 c.2.2).node_index_ := by
      intro d hd
      obtain ⟨hd0, hdb⟩ := hcalls d (by simp [hd])
      exact ⟨hd0, le_trans hdb h3⟩
    obtain ⟨g1, g2, g3⟩ := ih (w.AddArg c.1 c.2.1 c.2.2) h1 h2 hrest
    exact ⟨g1, g2, le_trans h3 g3⟩

/-- C2: starting from any gate whose argument set has no complementary
pair and whose argument magnitudes the allocator has already covered,
after any sequence of `AddArg` calls with nonzero already-allocated
indices the argument set still contains no pair of complementary
literals. -/
theorem AddArgs_no_complement_pair (w : PdagSt) (calls : List (Int × Nat × Variant))
    (hnp : noComplementPair w.gate.args_) (hb : argsBounded w)
    (hcalls : ∀ c ∈ calls, c.1 ≠ 0 ∧ c.1.natAbs ≤ w.node_index_) :
    noComplementPair (w.AddArgs calls).gate.args_ :=
  (AddArgs_inv calls w hnp hb hcalls).1

theorem AddArgs_no_complement_pair_witness :
    noComplementPair ((sampleW.AddArgs
      [(3, 3, Variant.variableArg), (-4, 4, Variant.variableArg),
        (3, 3, Variant.variableArg), (-3, 3, Variant.variableArg)]).gate.args_) :=
  AddArgs_no_complement_pair sampleW
    [(3, 3, Variant.variableArg), (-4, 4, Variant.variableArg),
      (3, 3, Variant.variableArg), (-3, 3, Variant.variableArg)]
    (by decide) (by decide) (by decide)

end scram
